import Mathlib

/-!
Shallow embedding of the numeric core of the cryptography-basics repository:
the modular-arithmetic file (modulo, modularExponentiation), the ECDH file
(modularInverse, Point, addPoints), the Diffie-Hellman exchange file, the
chapter-2 XOR cipher and toy RSA, the chapter-11 RSA pair, and the chapter-13
Fisher-Yates shuffle.

JavaScript remainder (%) on both Number and BigInt truncates toward zero,
which is Int.tmod.  BigInt exponentiation (**) with a negative exponent and
remainder by 0n throw a RangeError; where a claim depends on that behaviour
the operation is modelled as Option-valued (none = throw).
-/

namespace CryptoBasics

universe u

set_option maxRecDepth 4000

/-- Embedding of modulo(a, n) from the modular-arithmetic file: it returns
Number(BigInt(a) % BigInt(n)).  The remainder truncates toward zero
(Int.tmod); remainder by 0n throws a RangeError, modelled as none.  A negative
modulus does not throw in JS and is passed through to tmod. -/
def modulo (a n : Int) : Option Int :=
  if n = 0 then none else some (Int.tmod a n)

/-- The subexpression baseBigInt ** exponentBigInt of modularExponentiation:
the full power, evaluated before the single final reduction.  Every caller
guards the negative-exponent throw, so the exponent is clamped with toNat. -/
def fullPower (base exponent : Int) : Int :=
  base ^ exponent.toNat

/-- Embedding of modularExponentiation(base, exponent, modulus): the source
evaluates baseBigInt ** exponentBigInt % modulusBigInt, i.e. the full power
followed by one truncating remainder.  A negative exponent or zero modulus
throws in JS, modelled as none. -/
def modularExponentiation (base exponent modulus : Int) : Option Int :=
  if exponent < 0 ∨ modulus = 0 then none
  else some (Int.tmod (fullPower base exponent) modulus)

namespace ECC

/-- Prime modulus p = 23 of the curve in the ECDH file. -/
def p : Int := 23

/-- Curve coefficient a = 1 of the ECDH file. -/
def a : Int := 1

/-- Curve coefficient b = 1 of the ECDH file. -/
def b : Int := 1

end ECC

/-- The loop guard of modularInverse(n, p) of the ECDH file: the test
(n * x) % p === 1 on the normalized n (JS Number % truncates toward zero). -/
def modularInverseGuard (n p : Int) (x : Nat) : Bool :=
  Int.tmod (Int.tmod (Int.tmod n p + p) p * (x : Int)) p == 1

/-- Embedding of modularInverse(n, p) of the ECDH file: normalize n into
[0, p) with ((n % p) + p) % p (JS Number % truncates toward zero), then scan
x = 1, 2, ..., p - 1 for the first x satisfying the loop guard; return the
sentinel 0 when the loop finds no such x (including when p <= 1, where the
loop body never runs). -/
def modularInverse (n p : Int) : Int :=
  match (List.range' 1 (p.toNat - 1)).find? (modularInverseGuard n p) with
  | some x => (x : Int)
  | none => 0

/-- The Point interface of the ECDH file: x and y are either both null (the
point at infinity O) or both set; the nullable coordinate pair is modelled as
a tagged variant. -/
inductive Point where
  | infinity : Point
  | mk (x y : Int) : Point
  deriving DecidableEq

/-- Embedding of addPoints(P, Q) of the ECDH file.  Identity checks on null
x first; then the doubling branch when P and Q are literally equal, else the
chord branch; slope, xR, yR all use the truncating %, and the final
coordinates are renormalized into [0, p) with ((r % p) + p) % p.  There is no
vertical-line branch in the source: equal x with different y falls into the
chord branch with denominator 0, and modularInverse(0, p) returns 0. -/
def addPoints (P Q : Point) : Point :=
  match P, Q with
  | .infinity, _ => Q
  | _, .infinity => P
  | .mk px py, .mk qx qy =>
    let slope :=
      if px = qx ∧ py = qy then
        Int.tmod ((3 * px * px + ECC.a) * modularInverse (2 * py) ECC.p) ECC.p
      else
        Int.tmod ((qy - py) * modularInverse (qx - px) ECC.p) ECC.p
    let xR := Int.tmod (slope * slope - px - qx) ECC.p
    let yR := Int.tmod (slope * (px - xR) - py) ECC.p
    .mk (Int.tmod (Int.tmod xR ECC.p + ECC.p) ECC.p)
        (Int.tmod (Int.tmod yR ECC.p + ECC.p) ECC.p)

/-- Membership in the curve y^2 = x^3 + a x + b (mod p) stated in the ECDH
file (the file itself has no isOnCurve function; this is the equation its
header comment and parameters define, used to pick on-curve test points). -/
def onCurve (P : Point) : Prop :=
  match P with
  | .infinity => True
  | .mk x y => (y * y) % ECC.p = (x * x * x + ECC.a * x + ECC.b) % ECC.p

instance instDecidableOnCurve (P : Point) : Decidable (onCurve P) :=
  match P with
  | .infinity => isTrue trivial
  | .mk x y =>
    inferInstanceAs (Decidable ((y * y) % ECC.p = (x * x * x + ECC.a * x + ECC.b) % ECC.p))

/-- The record returned by diffieHellmanExchange. -/
structure DHResult where
  alicePublicKey : Int
  bobPublicKey : Int
  sharedSecretAlice : Int
  sharedSecretBob : Int
  deriving DecidableEq

/-- Embedding of diffieHellmanExchange(p, g, a, b): A = g ** a % p,
B = g ** b % p, sharedSecretAlice = B ** a % p, sharedSecretBob = A ** b % p,
all on BigInt with the truncating remainder. -/
def diffieHellmanExchange (p g a b : Int) : DHResult :=
  let alicePublicKey := Int.tmod (g ^ a.toNat) p
  let bobPublicKey := Int.tmod (g ^ b.toNat) p
  let sharedSecretAlice := Int.tmod (bobPublicKey ^ a.toNat) p
  let sharedSecretBob := Int.tmod (alicePublicKey ^ b.toNat) p
  ⟨alicePublicKey, bobPublicKey, sharedSecretAlice, sharedSecretBob⟩

namespace Chapter2

/-- Worker for encryptSymmetric: strings are sequences of UTF-16 code units
(naturals below 65536); position i is XORed with key code unit i mod
key.length, and String.fromCharCode keeps the low 16 bits of its argument.
The index i % key.length is always in range when the key is non-empty, so
charCodeAt is modelled with getD. -/
def encryptSymmetricFrom (key : List Nat) : Nat → List Nat → List Nat
  | _, [] => []
  | i, c :: rest =>
    (c ^^^ key.getD (i % key.length) 0) % 65536 :: encryptSymmetricFrom key (i + 1) rest

/-- Embedding of encryptSymmetric(message, key) of chapter-2. -/
def encryptSymmetric (message key : List Nat) : List Nat :=
  encryptSymmetricFrom key 0 message

/-- Embedding of decryptSymmetric(ciphertext, key) of chapter-2: the source
simply calls encryptSymmetric again. -/
def decryptSymmetric (ciphertext key : List Nat) : List Nat :=
  encryptSymmetric ciphertext key

/-- Public key model of chapter-2. -/
structure PublicKey where
  e : Int
  n : Int

/-- Private key model of chapter-2. -/
structure PrivateKey where
  d : Int
  n : Int

/-- Prime p = 17 chosen by generateAsymmetricKeyPair. -/
def p : Int := 17

/-- Prime q = 19 chosen by generateAsymmetricKeyPair. -/
def q : Int := 19

/-- Modulus n = p * q = 323. -/
def n : Int := p * q

/-- Totient phi_n = (p - 1) * (q - 1) = 288. -/
def phi_n : Int := (p - 1) * (q - 1)

/-- Public exponent e = 13. -/
def e : Int := 13

/-- Hard-coded private exponent d = 221; the source comment asserts
(221 * 13) % 288 === 1. -/
def d : Int := 221

/-- Embedding of generateAsymmetricKeyPair() of chapter-2. -/
def generateAsymmetricKeyPair : PublicKey × PrivateKey :=
  (⟨e, n⟩, ⟨d, n⟩)

/-- Embedding of encryptAsymmetric(message, publicKey) of chapter-2:
message ** e % n on BigInt. -/
def encryptAsymmetric (message : Int) (publicKey : PublicKey) : Int :=
  Int.tmod (message ^ publicKey.e.toNat) publicKey.n

/-- Embedding of decryptAsymmetric(ciphertext, privateKey) of chapter-2:
ciphertext ** d % n on BigInt. -/
def decryptAsymmetric (ciphertext : Int) (privateKey : PrivateKey) : Int :=
  Int.tmod (ciphertext ^ privateKey.d.toNat) privateKey.n

end Chapter2

namespace Chapter11

/-- Public key model of chapter-11. -/
structure PublicKey where
  e : Int
  n : Int

/-- Private key model of chapter-11. -/
structure PrivateKey where
  d : Int
  n : Int

/-- Embedding of generateRSAKeyPair(p, q) of chapter-11: n = p * q, fixed
e = 17 and hard-coded d = 2753 (pre-calculated for p = 61, q = 53). -/
def generateRSAKeyPair (p q : Int) : PublicKey × PrivateKey :=
  (⟨17, p * q⟩, ⟨2753, p * q⟩)

/-- Embedding of encryptRSA(message, publicKey): message ** e % n on BigInt. -/
def encryptRSA (message : Int) (publicKey : PublicKey) : Int :=
  Int.tmod (message ^ publicKey.e.toNat) publicKey.n

/-- Embedding of decryptRSA(ciphertext, privateKey): ciphertext ** d % n on
BigInt. -/
def decryptRSA (ciphertext : Int) (privateKey : PrivateKey) : Int :=
  Int.tmod (ciphertext ^ privateKey.d.toNat) privateKey.n

end Chapter11

namespace Chapter13

/-- The destructuring swap [array[i], array[j]] = [array[j], array[i]] of
chapter-13 on an immutable list; out-of-range indices leave the list
unchanged (they never occur in yatesShuffle, where 0 <= j <= i < length). -/
def swapList {α : Type u} (l : List α) (i j : Nat) : List α :=
  match l[i]?, l[j]? with
  | some a, some b => (l.set i b).set j a
  | _, _ => l

/-- The loop of yatesShuffle: for i = k, k - 1, ..., 1 swap position i with
position rand i. -/
def yatesShuffleAux {α : Type u} (rand : Nat → Nat) : List α → Nat → List α
  | l, 0 => l
  | l, i + 1 => yatesShuffleAux rand (swapList l (i + 1) (rand (i + 1))) i

/-- Embedding of yatesShuffle(array) of chapter-13: iterate i from
array.length - 1 down to 1, swapping index i with a chosen index
j = rand i (the source draws j = crypto.randomInt(i + 1), so 0 <= j <= i);
the in-place mutation is modelled by returning the final list. -/
def yatesShuffle {α : Type u} (l : List α) (rand : Nat → Nat) : List α :=
  yatesShuffleAux rand l (l.length - 1)

end Chapter13


/-- Truncating remainder of a power of naturals, pushed down to Nat, where
literal arithmetic is fast for both the elaborator and the kernel. -/
lemma int_pow_tmod_eq (m n k : Nat) :
    Int.tmod ((m : Int) ^ k) (n : Int) = ((m ^ k % n : Nat) : Int) := by
  rw [← Nat.cast_pow, ← Int.ofNat_tmod]

/-- Claim C5: with p = 23, g = 5, a = 6, b = 15 the exchange yields Alice
public key 8, Bob public key 19, and both shared secrets equal 2. -/
theorem diffieHellman_agreement_23_5_6_15 :
    diffieHellmanExchange 23 5 6 15 = ⟨8, 19, 2, 2⟩ := by
  decide

/-- Claim C1 (failing evaluation): with the chapter-2 key pair
(e = 13, n = 323), (d = 221, n = 323), decrypting the encryption of the
message 100 (the example message of the file) yields 253, and of the message
2 yields 53: the round trip does not recover the message.  The hard-coded d
contradicts the source comment (221 * 13) % 288 === 1, since the remainder
is 281 (the inverse of 13 modulo 288 is 133, not 221).  The chapter-11 pair
(e = 17, d = 2753, n = 3233) does round-trip its example message 123. -/
theorem rsa_chapter2_roundtrip_fails :
    Chapter2.decryptAsymmetric
        (Chapter2.encryptAsymmetric 100 Chapter2.generateAsymmetricKeyPair.1)
        Chapter2.generateAsymmetricKeyPair.2 = 253 ∧
    Chapter2.decryptAsymmetric
        (Chapter2.encryptAsymmetric 2 Chapter2.generateAsymmetricKeyPair.1)
        Chapter2.generateAsymmetricKeyPair.2 = 53 ∧
    Int.tmod (Chapter2.d * Chapter2.e) Chapter2.phi_n = 281 ∧
    Chapter11.decryptRSA
        (Chapter11.encryptRSA 123 (Chapter11.generateRSAKeyPair 61 53).1)
        (Chapter11.generateRSAKeyPair 61 53).2 = 123 := by
  have h100e : Chapter2.encryptAsymmetric 100 Chapter2.generateAsymmetricKeyPair.1 = 36 :=
    (int_pow_tmod_eq 100 323 13).trans (by norm_num)
  have h100d : Chapter2.decryptAsymmetric 36 Chapter2.generateAsymmetricKeyPair.2 = 253 :=
    (int_pow_tmod_eq 36 323 221).trans (by norm_num)
  have h2e : Chapter2.encryptAsymmetric 2 Chapter2.generateAsymmetricKeyPair.1 = 117 :=
    (int_pow_tmod_eq 2 323 13).trans (by norm_num)
  have h2d : Chapter2.decryptAsymmetric 117 Chapter2.generateAsymmetricKeyPair.2 = 53 :=
    (int_pow_tmod_eq 117 323 221).trans (by norm_num)
  have h11e : Chapter11.encryptRSA 123 (Chapter11.generateRSAKeyPair 61 53).1 = 855 :=
    (int_pow_tmod_eq 123 3233 17).trans (by norm_num)
  have h11d : Chapter11.decryptRSA 855 (Chapter11.generateRSAKeyPair 61 53).2 = 123 :=
    (int_pow_tmod_eq 855 3233 2753).trans (by norm_num)
  refine ⟨h100e ▸ h100d, h2e ▸ h2d, by decide, h11e ▸ h11d⟩

/-- Claim C2 (counterexample): the brute-force modular inverse of 13 modulo
288 is 133, not 221; indeed (221 * 13) % 288 = 281, not 1. -/
theorem modularInverse_13_288_is_133_not_221 :
    modularInverse 13 288 = 133 ∧ Int.tmod (221 * 13) 288 = 281 := by
  decide

/-- Claim C7 (counterexample): modularInverse(2, 4), where gcd(2, 4) = 2 is
not 1, silently returns the numeric sentinel 0 instead of failing. -/
theorem modularInverse_2_4_returns_zero :
    modularInverse 2 4 = 0 ∧ Int.gcd 2 4 = 2 := by
  decide

/-- Claim C6 (counterexample): modulo(-7, 3) returns -1, which is not in
[0, 3); and modulo(5, -3) returns a value instead of failing on the
non-positive modulus. -/
theorem modulo_negative_dividend_counterexample :
    modulo (-7) 3 = some (-1) ∧ ¬ (0 : Int) ≤ -1 ∧ modulo 5 (-3) = some 2 := by
  decide

/-- Claim C3 (counterexample): (1, 7) and (1, 16) are distinct points of the
curve with the same x (mutual inverses), yet addPoints returns the finite
point (21, 16), not the point at infinity; doubling the on-curve point (4, 0)
with y = 0 returns the finite point (15, 0), not the point at infinity. -/
theorem addPoints_vertical_counterexample :
    onCurve (Point.mk 1 7) ∧ onCurve (Point.mk 1 16) ∧ (7 : Int) ≠ 16 ∧
    addPoints (Point.mk 1 7) (Point.mk 1 16) = Point.mk 21 16 ∧
    addPoints (Point.mk 1 7) (Point.mk 1 16) ≠ Point.infinity ∧
    onCurve (Point.mk 4 0) ∧
    addPoints (Point.mk 4 0) (Point.mk 4 0) = Point.mk 15 0 ∧
    addPoints (Point.mk 4 0) (Point.mk 4 0) ≠ Point.infinity := by
  decide

/-- Claim C8 (counterexample): modularExponentiation 2 100 23 is by
definition the single truncating reduction of fullPower 2 100, and
fullPower 2 100 is the fully evaluated power 2^100, which vastly exceeds the
modulus 23: the full power is computed before a single final reduction. -/
theorem modularExponentiation_evaluates_full_power :
    modularExponentiation 2 100 23 = some (Int.tmod (fullPower 2 100) 23) ∧
    fullPower 2 100 = 1267650600228229401496703205376 ∧
    (23 : Int) < fullPower 2 100 := by
  decide


/-- The truncating remainder is congruent to the dividend modulo n. -/
lemma tmod_emod (a n : Int) : Int.tmod a n % n = a % n := by
  conv_rhs => rw [← Int.tmod_add_tdiv a n]
  rw [Int.add_mul_emod_self_left]

/-- Lower bound of the truncating remainder for a positive modulus. -/
lemma neg_lt_tmod (a : Int) {n : Int} (hn : 0 < n) : -n < Int.tmod a n := by
  rcases le_or_lt 0 a with ha | ha
  · have h0 : 0 ≤ Int.tmod a n := Int.tmod_nonneg n ha
    omega
  · have h1 : Int.tmod (-a) n < n := Int.tmod_lt_of_pos (-a) hn
    have h2 : Int.tmod (-a) n = -Int.tmod a n := by
      rw [Int.tmod_def, Int.tmod_def, Int.neg_tdiv]; ring
    omega

/-- The JS normalization ((a % p) + p) % p with truncating % equals the
Euclidean remainder when the modulus is positive. -/
lemma norm_tmod_eq_emod (a n : Int) (hn : 0 < n) :
    Int.tmod (Int.tmod a n + n) n = a % n := by
  have h1 : -n < Int.tmod a n := neg_lt_tmod a hn
  have h2 : 0 ≤ Int.tmod a n + n := by omega
  rw [Int.tmod_eq_emod h2 hn.le]
  rw [show Int.tmod a n + n = Int.tmod a n + n * 1 by ring]
  rw [Int.add_mul_emod_self_left, tmod_emod]

/-- Reducing the left factor before a product does not change the remainder. -/
lemma emod_mul_emod_left (a b n : Int) : (a % n * b) % n = (a * b) % n := by
  rw [Int.mul_emod, Int.emod_emod_of_dvd _ dvd_rfl, ← Int.mul_emod]

/-- Claim C4: for base >= 0, exponent >= 0 and modulus n > 0 the operation
returns base ^ exponent mod n, always in [0, n); exponent 0 gives 1 mod n for
every base, base 0 with positive exponent gives 0, and the three concrete
values of the spec hold. -/
theorem modularExponentiation_contract (base exponent n : Int)
    (hbase : 0 ≤ base) (hexp : 0 ≤ exponent) (hn : 0 < n) :
    modularExponentiation base exponent n = some (base ^ exponent.toNat % n) ∧
    (∀ r, modularExponentiation base exponent n = some r → 0 ≤ r ∧ r < n) ∧
    (∀ b0 : Int, modularExponentiation b0 0 n = some (1 % n)) ∧
    (∀ e0 : Int, 0 < e0 → modularExponentiation 0 e0 n = some 0) ∧
    modularExponentiation 5 6 23 = some 8 ∧
    modularExponentiation 0 0 23 = some 1 ∧
    modularExponentiation 7 1 1 = some 0 := by
  have hmain : modularExponentiation base exponent n = some (base ^ exponent.toNat % n) := by
    unfold modularExponentiation fullPower
    rw [if_neg (by push_neg; exact ⟨hexp, hn.ne'⟩)]
    rw [Int.tmod_eq_emod (pow_nonneg hbase _) hn.le]
  refine ⟨hmain, ?_, ?_, ?_, by decide, by decide, by decide⟩
  · intro r hr
    rw [hmain] at hr
    obtain rfl : base ^ exponent.toNat % n = r := Option.some.inj hr
    exact ⟨Int.emod_nonneg _ hn.ne', Int.emod_lt_of_pos _ hn⟩
  · intro b0
    unfold modularExponentiation fullPower
    rw [if_neg (by push_neg; exact ⟨le_refl 0, hn.ne'⟩)]
    norm_num
    rw [Int.tmod_eq_emod (by norm_num) hn.le]
  · intro e0 he0
    unfold modularExponentiation fullPower
    rw [if_neg (by push_neg; exact ⟨he0.le, hn.ne'⟩)]
    rw [zero_pow (by omega : e0.toNat ≠ 0), Int.zero_tmod]

/-- Witness for C4 at base 5, exponent 6, modulus 23. -/
theorem modularExponentiation_contract_witness :
    (0 : Int) ≤ 5 ∧ (0 : Int) ≤ 6 ∧ (0 : Int) < 23 ∧
    modularExponentiation 5 6 23 = some ((5 : Int) ^ (6 : Int).toNat % 23) :=
  ⟨by decide, by decide, by decide,
    (modularExponentiation_contract 5 6 23 (by decide) (by decide) (by decide)).1⟩

/-- Claim C6 (amended): modulo returns the truncating JS remainder; for
a >= 0 and n > 0 it is the Euclidean remainder in [0, n), but a negative
dividend can produce a negative result, and no InvalidModulus failure
exists: only a zero modulus fails (JS RangeError), a negative modulus
returns a value. -/
theorem modulo_contract_amended (a n : Int) (ha : 0 ≤ a) (hn : 0 < n) :
    modulo a n = some (Int.tmod a n) ∧
    0 ≤ Int.tmod a n ∧ Int.tmod a n < n ∧ Int.tmod a n = a % n ∧
    modulo a 0 = none := by
  refine ⟨?_, Int.tmod_nonneg n ha, Int.tmod_lt_of_pos a hn,
    Int.tmod_eq_emod ha hn.le, ?_⟩
  · unfold modulo; rw [if_neg hn.ne']
  · unfold modulo; rw [if_pos rfl]

/-- Witness for C6 (amended) at a = 17, n = 5, the example of the source. -/
theorem modulo_contract_amended_witness :
    (0 : Int) ≤ 17 ∧ (0 : Int) < 5 ∧
    modulo 17 5 = some (Int.tmod 17 5) ∧ modulo 17 5 = some 2 :=
  ⟨by decide, by decide, (modulo_contract_amended 17 5 (by decide) (by decide)).1,
    by decide⟩

/-- Fuel-indexed binary (square-and-multiply) modular exponentiation;
structural in the fuel so that it evaluates by kernel reduction.  Modelled
from the spec: binary square-and-multiply with result in [0, n). -/
def modPowBinaryAux (n : Int) : Nat → Int → Nat → Int
  | _, _, 0 => 1 % n
  | 0, _, _ + 1 => 1 % n
  | fuel + 1, base, e + 1 =>
    let h := modPowBinaryAux n fuel (base * base % n) ((e + 1) / 2)
    if (e + 1) % 2 = 1 then base % n * h % n else h

/-- Binary square-and-multiply modular exponentiation, modelled from the
spec for comparison against the naive full-power evaluation of the source. -/
def modPowBinary (n base : Int) (e : Nat) : Int :=
  modPowBinaryAux n e base e

/-- Reducing the right factor before a product does not change the
remainder. -/
lemma emod_mul_emod_right (a b n : Int) : (a * (b % n)) % n = (a * b) % n := by
  rw [Int.mul_emod, Int.emod_emod_of_dvd _ dvd_rfl, ← Int.mul_emod]

/-- The fueled square-and-multiply computes the power remainder whenever the
fuel covers the exponent. -/
lemma modPowBinaryAux_eq (n : Int) :
    ∀ (fuel e : Nat) (base : Int), e ≤ fuel →
      modPowBinaryAux n fuel base e = base ^ e % n := by
  intro fuel
  induction fuel with
  | zero =>
    intro e base he
    obtain rfl : e = 0 := Nat.le_zero.mp he
    simp [modPowBinaryAux]
  | succ fuel ih =>
    intro e base he
    match e with
    | 0 => simp [modPowBinaryAux]
    | e + 1 =>
      have hfuel : (e + 1) / 2 ≤ fuel := by omega
      rw [modPowBinaryAux, ih _ _ hfuel]
      have hsq : (base * base % n) ^ ((e + 1) / 2) % n
          = base ^ (2 * ((e + 1) / 2)) % n := by
        have h1 := (Int.mod_modEq (base * base) n).pow ((e + 1) / 2)
        have h2 : (base * base) ^ ((e + 1) / 2) = base ^ (2 * ((e + 1) / 2)) := by
          rw [pow_mul, pow_two]
        calc (base * base % n) ^ ((e + 1) / 2) % n
            = (base * base) ^ ((e + 1) / 2) % n := h1
          _ = base ^ (2 * ((e + 1) / 2)) % n := by rw [h2]
      rcases Nat.even_or_odd (e + 1) with hpar | hpar
      · have hm : (e + 1) % 2 = 0 := Nat.even_iff.mp hpar
        have hexp : 2 * ((e + 1) / 2) = e + 1 := by omega
        rw [if_neg (by omega), hsq, hexp]
      · have hm : (e + 1) % 2 = 1 := Nat.odd_iff.mp hpar
        have hexp : 2 * ((e + 1) / 2) + 1 = e + 1 := by omega
        rw [if_pos hm, hsq, emod_mul_emod_left, emod_mul_emod_right,
          ← pow_succ', hexp]

/-- The binary square-and-multiply operation agrees with the power
remainder. -/
lemma modPowBinary_eq (n base : Int) (e : Nat) :
    modPowBinary n base e = base ^ e % n :=
  modPowBinaryAux_eq n e e base le_rfl

/-- Claim C8 (amended): modularExponentiation evaluates the full power with
** and performs a single final truncating reduction; it does not use binary
square-and-multiply, although for base >= 0, exponent >= 0, modulus > 0 the
returned value agrees with the binary square-and-multiply result. -/
theorem modularExponentiation_naive_amended (base exponent n : Int)
    (hbase : 0 ≤ base) (hexp : 0 ≤ exponent) (hn : 0 < n) :
    modularExponentiation base exponent n
      = some (Int.tmod (fullPower base exponent) n) ∧
    Int.tmod (fullPower base exponent) n = modPowBinary n base exponent.toNat := by
  constructor
  · unfold modularExponentiation
    rw [if_neg (by push_neg; exact ⟨hexp, hn.ne'⟩)]
  · unfold fullPower
    rw [Int.tmod_eq_emod (pow_nonneg hbase _) hn.le, modPowBinary_eq]

/-- Witness for C8 (amended) at base 5, exponent 6, modulus 23. -/
theorem modularExponentiation_naive_amended_witness :
    (0 : Int) ≤ 5 ∧ (0 : Int) ≤ 6 ∧ (0 : Int) < 23 ∧
    Int.tmod (fullPower 5 6) 23 = modPowBinary 23 5 6 ∧
    modPowBinary 23 5 6 = 8 :=
  ⟨by decide, by decide, by decide,
    (modularExponentiation_naive_amended 5 6 23 (by decide) (by decide) (by decide)).2,
    by decide⟩

/-- Claim C3 (amended): when two finite points share an x coordinate but
have different y coordinates (mutually inverse points), and when doubling a
finite point with y = 0, addPoints never returns the point at infinity: the
slope falls through to modularInverse with denominator 0, which returns the
sentinel 0, and a finite (incorrect) point is produced; no InverseNotDefined
failure exists. -/
theorem addPoints_vertical_amended (px py qy : Int)
    (hp : onCurve (Point.mk px py)) (hq : onCurve (Point.mk px qy))
    (hne : py ≠ qy) :
    addPoints (Point.mk px py) (Point.mk px qy) ≠ Point.infinity ∧
    addPoints (Point.mk px 0) (Point.mk px 0) ≠ Point.infinity := by
  constructor <;> · intro h; simp only [addPoints] at h; exact Point.noConfusion h

/-- Witness for C3 (amended) at the on-curve inverse pair (1, 7), (1, 16). -/
theorem addPoints_vertical_amended_witness :
    onCurve (Point.mk 1 7) ∧ onCurve (Point.mk 1 16) ∧ (7 : Int) ≠ 16 ∧
    addPoints (Point.mk 1 7) (Point.mk 1 16) ≠ Point.infinity :=
  ⟨by decide, by decide, by decide,
    (addPoints_vertical_amended 1 7 16 (by decide) (by decide) (by decide)).1⟩


/-- The loop guard of modularInverse holds at x exactly when x inverts a
modulo n (positive modulus). -/
lemma modularInverse_pred_eq (a n : Int) (hn : 0 < n) (x : Nat) :
    modularInverseGuard a n x = true ↔ (a * x) % n = 1 := by
  unfold modularInverseGuard
  rw [norm_tmod_eq_emod a n hn]
  have hx : (0 : Int) ≤ a % n * x :=
    mul_nonneg (Int.emod_nonneg a hn.ne') (Int.natCast_nonneg x)
  rw [beq_iff_eq, Int.tmod_eq_emod hx hn.le, emod_mul_emod_left]

/-- A witness of the loop guard forces coprimality of a and n. -/
lemma gcd_eq_one_of_inverse (a n : Int) (x : Int) (h : (a * x) % n = 1) :
    Int.gcd a n = 1 := by
  have hd1 : (Int.gcd a n : Int) ∣ a := Int.gcd_dvd_left
  have hd2 : (Int.gcd a n : Int) ∣ n := Int.gcd_dvd_right
  have h2 : (1 : Int) = a * x - n * (a * x / n) := by
    rw [← h, Int.emod_def]
  have hd3 : (Int.gcd a n : Int) ∣ 1 := by
    rw [h2]
    exact dvd_sub (hd1.mul_right _) (hd2.mul_right _)
  have hd4 : Int.gcd a n ∣ 1 := by exact_mod_cast hd3
  exact Nat.dvd_one.mp hd4

/-- Claim C7 (amended): when gcd(a, n) is not 1 (with n > 0), the
brute-force loop finds no inverse and modularInverse returns the numeric
sentinel 0 to its caller; no NoInverseExists failure is surfaced. -/
theorem modularInverse_not_coprime_returns_zero (a n : Int)
    (hn : 0 < n) (hg : Int.gcd a n ≠ 1) :
    modularInverse a n = 0 := by
  have hnone : (List.range' 1 (n.toNat - 1)).find? (modularInverseGuard a n) = none := by
    rw [List.find?_eq_none]
    intro x _ hpx
    exact hg (gcd_eq_one_of_inverse a n x ((modularInverse_pred_eq a n hn x).mp hpx))
  unfold modularInverse
  rw [hnone]

/-- Witness for C7 (amended) at a = 2, n = 4 (gcd 2). -/
theorem modularInverse_not_coprime_witness :
    (0 : Int) < 4 ∧ Int.gcd 2 4 ≠ 1 ∧ modularInverse 2 4 = 0 :=
  ⟨by decide, by decide,
    modularInverse_not_coprime_returns_zero 2 4 (by decide) (by decide)⟩

/-- Claim C2 (amended): for gcd(a, n) = 1 and n > 0 the brute-force search
returns the unique d with 0 <= d < n and a * d congruent to 1 modulo n; in
particular modularInverse 13 288 = 133 (not 221). -/
theorem modularInverse_correct (a n : Int) (hn : 0 < n) (hg : Int.gcd a n = 1) :
    0 ≤ modularInverse a n ∧ modularInverse a n < n ∧
    (a * modularInverse a n) % n = 1 % n ∧
    (∀ y, 0 ≤ y → y < n → (a * y) % n = 1 % n → y = modularInverse a n) ∧
    modularInverse 13 288 = 133 := by
  rcases lt_or_le 1 n with hn1 | hn1
  · -- n > 1: the inverse exists in [1, n) and the scan finds it
    have h1n : (1 : Int) % n = 1 := Int.emod_eq_of_lt (by norm_num) hn1
    -- Bezout witness, normalized into [0, n)
    have hbz : (1 : Int) = a * Int.gcdA a n + n * Int.gcdB a n := by
      have hb := Int.gcd_eq_gcd_ab a n
      rw [hg] at hb
      exact_mod_cast hb
    have hwinv : (a * (Int.gcdA a n % n)) % n = 1 := by
      rw [emod_mul_emod_right]
      have h2 : a * Int.gcdA a n = 1 + n * (-Int.gcdB a n) := by
        rw [mul_neg]
        omega
      rw [h2, Int.add_mul_emod_self_left, h1n]
    set w : Int := Int.gcdA a n % n with hw
    have hw0 : 0 ≤ w := Int.emod_nonneg _ hn.ne'
    have hwn : w < n := Int.emod_lt_of_pos _ hn
    have hw1 : w ≠ 0 := by
      intro h0
      rw [h0, mul_zero, Int.zero_emod] at hwinv
      omega
    have hwmem : w.toNat ∈ List.range' 1 (n.toNat - 1) := by
      rw [List.mem_range']
      exact ⟨w.toNat - 1, by omega, by omega⟩
    have hpredw : modularInverseGuard a n w.toNat = true := by
      apply (modularInverse_pred_eq a n hn w.toNat).mpr
      rw [Int.toNat_of_nonneg hw0]
      exact hwinv
    cases hfind : (List.range' 1 (n.toNat - 1)).find? (modularInverseGuard a n) with
    | none =>
      exact absurd hpredw (List.find?_eq_none.mp hfind _ hwmem)
    | some x =>
      have hres : modularInverse a n = (x : Int) := by
        unfold modularInverse
        rw [hfind]
      have hx0 : modularInverseGuard a n x = true := List.find?_some hfind
      have hx : (a * (x : Int)) % n = 1 :=
        (modularInverse_pred_eq a n hn x).mp hx0
      have hxmem := List.mem_of_find?_eq_some hfind
      rw [List.mem_range'] at hxmem
      obtain ⟨i, hi, hxi⟩ := hxmem
      have hx0 : (0 : Int) < (x : Int) := by
        have : 1 ≤ x := by omega
        exact_mod_cast this
      have hxn : (x : Int) < n := by
        have hxlt : x < n.toNat := by omega
        omega
      refine ⟨?_, ?_, ?_, ?_, by decide⟩
      · omega
      · omega
      · rw [hres, hx, h1n]
      · intro y hy0 hyn hyinv
        rw [hres]
        have h1 : n ∣ a * (x : Int) - a * y := by
          have hxy : (a * (x : Int)) % n = (a * y) % n := by
            rw [hx, hyinv, h1n]
          exact (Int.modEq_iff_dvd.mp hxy.symm)
        have h2 : n ∣ a * ((x : Int) - y) := by
          rw [mul_sub]
          exact h1
        have h3 : n ∣ (x : Int) - y :=
          Int.dvd_of_dvd_mul_right_of_gcd_one h2 (by rwa [Int.gcd_comm])
        obtain ⟨k, hk⟩ := h3
        have hk0 : k = 0 := by
          rcases lt_trichotomy k 0 with h | h | h
          · have : n * k ≤ n * (-1) := by
              apply mul_le_mul_of_nonneg_left (by omega) hn.le
            omega
          · exact h
          · have : n * 1 ≤ n * k := by
              apply mul_le_mul_of_nonneg_left (by omega) hn.le
            omega
        rw [hk0, mul_zero] at hk
        omega
  · -- n = 1: the loop body never runs and 0 is returned, which is the
    -- unique residue modulo 1
    obtain rfl : n = 1 := by omega
    have hres : modularInverse a 1 = 0 := by
      unfold modularInverse
      norm_num
    rw [hres]
    refine ⟨le_refl 0, by norm_num, by simp [Int.emod_one], ?_, by decide⟩
    intro y hy0 hyn _
    omega

/-- Witness for C2 (amended) at a = 13, n = 288. -/
theorem modularInverse_correct_witness :
    (0 : Int) < 288 ∧ Int.gcd 13 288 = 1 ∧
    (13 * modularInverse 13 288) % 288 = 1 % 288 :=
  ⟨by decide, by decide,
    (modularInverse_correct 13 288 (by decide) (by decide)).2.2.1⟩


/-- Key code units looked up by the cipher stay below 2^16 when the key is a
list of UTF-16 code units. -/
lemma key_getD_lt (key : List Nat) (hk : key ≠ [])
    (hkey : ∀ c ∈ key, c < 65536) (i : Nat) :
    key.getD (i % key.length) 0 < 65536 := by
  have hklen : 0 < key.length := List.length_pos.mpr hk
  have hidx : i % key.length < key.length := Nat.mod_lt _ hklen
  rw [List.getD_eq_getElem?_getD, List.getElem?_eq_getElem hidx]
  exact hkey _ (List.getElem_mem hidx)

/-- Running the XOR worker twice from the same start index restores the
message, position by position. -/
lemma encryptSymmetricFrom_involution (key : List Nat) (hk : key ≠ [])
    (hkey : ∀ c ∈ key, c < 65536) :
    ∀ (message : List Nat) (i : Nat), (∀ c ∈ message, c < 65536) →
      Chapter2.encryptSymmetricFrom key i (Chapter2.encryptSymmetricFrom key i message)
        = message := by
  intro message
  induction message with
  | nil => intro i _; rfl
  | cons c rest ih =>
    intro i hm
    have hc : c < 65536 := hm c (by simp)
    have hrest : ∀ x ∈ rest, x < 65536 := fun x hx => hm x (by simp [hx])
    have hkc : key.getD (i % key.length) 0 < 65536 := key_getD_lt key hk hkey i
    simp only [Chapter2.encryptSymmetricFrom]
    have h16 : (65536 : Nat) = 2 ^ 16 := by norm_num
    have hx1 : c ^^^ key.getD (i % key.length) 0 < 65536 := by
      rw [h16] at hc hkc ⊢
      exact Nat.xor_lt_two_pow hc hkc
    rw [Nat.mod_eq_of_lt hx1, Nat.xor_cancel_right, Nat.mod_eq_of_lt hc]
    exact congrArg (List.cons c) (ih (i + 1) hrest)

/-- Claim C9: the XOR cipher is an involution: decrypting the encryption of
any message (list of UTF-16 code units) with the same non-empty key (also
code units) returns the message exactly. -/
theorem xor_cipher_involution (message key : List Nat) (hk : key ≠ [])
    (hmsg : ∀ c ∈ message, c < 65536) (hkey : ∀ c ∈ key, c < 65536) :
    Chapter2.decryptSymmetric (Chapter2.encryptSymmetric message key) key = message :=
  encryptSymmetricFrom_involution key hk hkey message 0 hmsg

/-- Witness for C9 on the code units of "Hi" with a one-character key. -/
theorem xor_cipher_involution_witness :
    ([107] : List Nat) ≠ [] ∧
    Chapter2.decryptSymmetric (Chapter2.encryptSymmetric [72, 105] [107]) [107]
      = [72, 105] :=
  ⟨by decide, xor_cipher_involution [72, 105] [107] (by decide) (by decide) (by decide)⟩

/-- A list with the element at k pulled to the front, the hole filled with
x, is a permutation of the list with x pulled to the front. -/
lemma cons_set_perm {α : Type u} (l : List α) :
    ∀ (k : Nat) (hk : k < l.length) (x : α),
      (l.get ⟨k, hk⟩ :: l.set k x).Perm (x :: l) := by
  induction l with
  | nil => intro k hk; simp at hk
  | cons c t ih =>
    intro k hk x
    cases k with
    | zero => exact List.Perm.swap x c t
    | succ k =>
      have hk2 : k < t.length := Nat.lt_of_succ_lt_succ hk
      have h1 : (t.get ⟨k, hk2⟩ :: c :: t.set k x).Perm
          (c :: t.get ⟨k, hk2⟩ :: t.set k x) := List.Perm.swap c _ _
      have h2 : (c :: t.get ⟨k, hk2⟩ :: t.set k x).Perm (c :: x :: t) :=
        (ih k hk2 x).cons c
      have h3 : (c :: x :: t).Perm (x :: c :: t) := List.Perm.swap x c t
      exact (h1.trans h2).trans h3

/-- Exchanging the entries at two positions permutes the list. -/
lemma set_set_perm {α : Type u} (l : List α) :
    ∀ (i j : Nat) (hi : i < l.length) (hj : j < l.length),
      ((l.set i (l.get ⟨j, hj⟩)).set j (l.get ⟨i, hi⟩)).Perm l := by
  induction l with
  | nil => intro i j hi; simp at hi
  | cons c t ih =>
    intro i j hi hj
    match i, j with
    | 0, 0 => simp
    | 0, k + 1 =>
      have hk : k < t.length := Nat.lt_of_succ_lt_succ hj
      exact cons_set_perm t k hk c
    | m + 1, 0 =>
      have hm : m < t.length := Nat.lt_of_succ_lt_succ hi
      exact cons_set_perm t m hm c
    | m + 1, k + 1 =>
      have hm : m < t.length := Nat.lt_of_succ_lt_succ hi
      have hk : k < t.length := Nat.lt_of_succ_lt_succ hj
      exact (ih m k hm hk).cons c

/-- One destructuring swap permutes the list (and is the identity when an
index is out of range). -/
lemma swapList_perm {α : Type u} (l : List α) (i j : Nat) :
    (Chapter13.swapList l i j).Perm l := by
  unfold Chapter13.swapList
  split
  · next a b hi hj =>
    rw [List.getElem?_eq_some_iff] at hi hj
    obtain ⟨hilt, ha⟩ := hi
    obtain ⟨hjlt, hb⟩ := hj
    subst ha
    subst hb
    exact set_set_perm l i j hilt hjlt
  · exact List.Perm.refl l

/-- Every pass of the shuffle loop permutes the list. -/
lemma yatesShuffleAux_perm {α : Type u} (rand : Nat → Nat) :
    ∀ (k : Nat) (l : List α), (Chapter13.yatesShuffleAux rand l k).Perm l := by
  intro k
  induction k with
  | zero => intro l; exact List.Perm.refl l
  | succ k ih =>
    intro l
    exact (ih _).trans (swapList_perm l (k + 1) (rand (k + 1)))

/-- Claim C10: for every input list and every choice function with
0 <= rand i <= i at each step, yatesShuffle returns a list of the same
length with the same multiset of elements (a permutation): it only
reorders, never drops, duplicates, or alters elements. -/
theorem yatesShuffle_perm {α : Type u} (l : List α) (rand : Nat → Nat)
    (hr : ∀ i, rand i ≤ i) :
    (Chapter13.yatesShuffle l rand).length = l.length ∧
    (Chapter13.yatesShuffle l rand).Perm l ∧
    ((Chapter13.yatesShuffle l rand : List α) : Multiset α) = (l : Multiset α) := by
  have hperm : (Chapter13.yatesShuffle l rand).Perm l :=
    yatesShuffleAux_perm rand (l.length - 1) l
  exact ⟨hperm.length_eq, hperm, Multiset.coe_eq_coe.mpr hperm⟩

/-- Witness for C10 on [1, 2, 3] with the constant-zero choice function. -/
theorem yatesShuffle_perm_witness :
    Chapter13.yatesShuffle [1, 2, 3] (fun _ => 0) = [2, 3, 1] ∧
    (Chapter13.yatesShuffle [1, 2, 3] (fun _ => 0)).Perm [1, 2, 3] :=
  ⟨by decide,
    (yatesShuffle_perm [1, 2, 3] (fun _ => 0) (fun i => Nat.zero_le i)).2.1⟩

end CryptoBasics
